import Mathlib

/-!
Verification of the contig-overlap graph builder (AdjList).

The program reads contigs, extracts their two terminal (k-1)-mers,
indexes them (forward and reverse-complement orientations) in two hash
tables, and emits a directed edge u → v whenever the (k-1)-suffix of u
in its orientation equals the (k-1)-prefix of v in its orientation.

The embedding follows `src/AdjList/AdjList.cpp`.  The helper classes
`Kmer`, `ContigNode` and the graph containers live in headers that are
not part of the source tree; they are modelled from the specification
where noted.
-/

namespace AdjList

/-- Modelled from the spec: the recognised alphabet of the `Kmer` class
(missing header `Kmer.h`).  The active alphabet is either the 4-letter
nucleotide code `A,C,G,T` or the numeric colour-space code `0..3`;
both kinds of symbols are represented in one type. -/
inductive Sym : Type where
  | A : Sym
  | C : Sym
  | G : Sym
  | T : Sym
  | c0 : Sym
  | c1 : Sym
  | c2 : Sym
  | c3 : Sym
deriving DecidableEq, Repr

/-- Modelled from the spec: `isdigit` on the leading symbol of a
sequence — true exactly for the numeric colour-space symbols. -/
def Sym.isDigitSym : Sym → Bool
  | .c0 => true
  | .c1 => true
  | .c2 => true
  | .c3 => true
  | _ => false

/-- Modelled from the spec: `isalpha` — true exactly for the
nucleotide letters. -/
def Sym.isAlphaSym : Sym → Bool
  | .A => true
  | .C => true
  | .G => true
  | .T => true
  | _ => false

/-- Modelled from the spec: per-symbol complement used by
`reverseComplement` (missing header `Kmer.h`): `A↔T`, `C↔G`; a
colour-space symbol is its own complement. -/
def Sym.complement : Sym → Sym
  | .A => .T
  | .T => .A
  | .C => .G
  | .G => .C
  | s => s

/-- A sequence of symbols; a `Kmer` is such a sequence whose length is
the globally configured L = k-1. -/
abbrev Seq : Type := List Sym

/-- Modelled from the spec: `reverseComplement` of a k-mer (missing
header `Kmer.h`): each symbol mapped to its complement and the overall
order reversed. -/
def reverseComplement (s : Seq) : Seq :=
  (s.map Sym.complement).reverse

/-- Modelled from the spec: `ContigNode` (missing header
`ContigNode.h`): a contig id paired with a sense bit; `sense = false`
means as-read, `sense = true` means reverse-complemented. -/
structure ContigNode : Type where
  id : Nat
  sense : Bool
deriving DecidableEq, Repr

/-- Modelled from the spec: the `~` operator of `ContigNode` — flip
the sense bit. -/
def ContigNode.flip (u : ContigNode) : ContigNode :=
  ⟨u.id, !u.sense⟩

/-- Modelled from the spec: the `^` operator of `ContigNode` — flip
the sense bit when `s` is true. -/
def ContigNode.xorSense (u : ContigNode) (s : Bool) : ContigNode :=
  ⟨u.id, xor u.sense s⟩

/-- `struct ContigEndSeq` (AdjList.cpp:80-84): the two terminal k-mers
of a contig, `l` the first L bases and `r` the last L bases. -/
structure ContigEndSeq : Type where
  l : Seq
  r : Seq
deriving DecidableEq, Repr

/-- `ContigProperties` of a vertex: sequence length and coverage. -/
structure ContigProperties : Type where
  length : Nat
  coverage : Nat
deriving DecidableEq, Repr

/-! ### Coverage parsing (AdjList.cpp:86-92) -/

/-- Numeric value of a digit string (most significant first). -/
def digitsVal (ds : List Char) : Nat :=
  ds.foldl (fun a c => 10 * a + (c.toNat - 48)) 0

/-- Whitespace skipped by stream extraction in the C locale:
space, tab, newline, vertical tab, form feed, carriage return. -/
def isSpaceChar (c : Char) : Bool :=
  c = ' ' || c = '\t' || c = '\n' || c = '\x0B' || c = '\x0C' ||
    c = '\r'

/-- The largest value of the program's 32-bit `unsigned`. -/
def UINT_MAX : Nat := 4294967295

/-- The outcome of one `istream >> unsigned` extraction: whether the
stream is still good (failbit clear), the value stored into the
target variable, and the remaining characters. -/
structure ExtractResult : Type where
  ok : Bool
  value : Nat
  rest : List Char
deriving DecidableEq, Repr

/-- An optional single leading sign of the numeric field: whether it
is a minus, and the characters after the sign. -/
def splitSign (t : List Char) : Bool × List Char :=
  match t with
  | c :: u =>
    if c = '-' then (true, u)
    else if c = '+' then (false, u)
    else (false, t)
  | [] => (false, t)

/-- Modelled on `num_get` as used by `istream >> unsigned` (C++11
[facet.num.get.virtuals], the behaviour of libstdc++/libc++): skip
C-locale whitespace; read an optional sign and a maximal run of
decimal digits.  No digits: conversion fails, 0 is stored, failbit.
A field whose value exceeds `UINT_MAX`: the most positive value
`UINT_MAX` is stored, failbit.  Otherwise the value is stored —
negated modulo 2^32 when the field is negative — and the stream
stays good. -/
def extractUInt (s : List Char) : ExtractResult :=
  let t := s.dropWhile isSpaceChar
  let p := splitSign t
  let ds := p.2.takeWhile Char.isDigit
  let rest := p.2.dropWhile Char.isDigit
  if ds.isEmpty then ⟨false, 0, rest⟩
  else if UINT_MAX < digitsVal ds then ⟨false, UINT_MAX, rest⟩
  else if p.1 then ⟨true, (2 ^ 32 - digitsVal ds) % 2 ^ 32, rest⟩
  else ⟨true, digitsVal ds, rest⟩

/-- `getCoverage` (AdjList.cpp:86-92): `ss >> length >> coverage`
with `coverage` initialised to 0 and `length` discarded.  When the
first extraction fails the second is never attempted (the sentry of
a failed stream refuses) and 0 is returned; otherwise the value the
second extraction stores into `coverage` is returned — its parsed
value, 0 on a missing or malformed second field, `UINT_MAX` on an
out-of-range one. -/
def getCoverage (comment : List Char) : Nat :=
  let r1 := extractUInt comment
  if r1.ok then (extractUInt r1.rest).value else 0

/-! ### Contig ingestion (`readContigs`, AdjList.cpp:97-128) -/

/-- An input record as delivered by the sequence reader: identifier,
sequence and free-text comment. -/
structure FastaRecord : Type where
  id : String
  seq : Seq
  comment : List Char
deriving DecidableEq, Repr

/-- `isdigit(seq[0])`: `std::string::operator[]` at the end returns
`'\0'`, which is not a digit, so an empty sequence reads as
non-digit. -/
def firstIsDigit (s : Seq) : Bool :=
  match s with
  | [] => false
  | x :: _ => x.isDigitSym

/-- `isalpha(seq[0])`, with the same `'\0'` convention for an empty
sequence. -/
def firstIsAlpha (s : Seq) : Bool :=
  match s with
  | [] => false
  | x :: _ => x.isAlphaSym

/-- Fatal conditions raised during a run (failed `assert` or option
check); each aborts the whole run. -/
inductive RunError : Type where
  | configError : RunError
  | alphabetError : RunError
  | seqTooShort : RunError
deriving DecidableEq, Repr

/-- The mutable state threaded through ingestion: the detected
alphabet flag `opt::colourSpace`, the vertex properties added to the
graph by `add_vertex`, and the `contigs` table of terminal k-mers. -/
structure IngestState : Type where
  colourSpace : Bool
  props : List ContigProperties
  contigs : List ContigEndSeq
deriving DecidableEq, Repr

/-- The empty state at the start of `main`. -/
def initState : IngestState := ⟨false, [], []⟩

/-- One iteration of the record loop in `readContigs`
(AdjList.cpp:105-126): detect or check the alphabet (`count` is the
per-file record counter), add the vertex properties, check the length
invariant, and record the two terminal k-mers. -/
def stepRecord (L : Nat) (count : Nat) (st : IngestState)
    (rec : FastaRecord) : Except RunError IngestState :=
  let cs := if count = 0 then firstIsDigit rec.seq else st.colourSpace
  if count ≠ 0 ∧
      ((st.colourSpace ∧ ¬ firstIsDigit rec.seq) ∨
       (¬ st.colourSpace ∧ ¬ firstIsAlpha rec.seq)) then
    Except.error RunError.alphabetError
  else
    let props := st.props ++
      [⟨rec.seq.length, getCoverage rec.comment⟩]
    if rec.seq.length ≤ L then
      Except.error RunError.seqTooShort
    else
      Except.ok ⟨cs, props,
        st.contigs ++
          [⟨rec.seq.take L, rec.seq.drop (rec.seq.length - L)⟩]⟩

/-- The record loop of `readContigs` from a given per-file record
count. -/
def readRecsFrom (L : Nat) (count : Nat) (st : IngestState) :
    List FastaRecord → Except RunError IngestState
  | [] => Except.ok st
  | rec :: rest => do
    let st' ← stepRecord L count st rec
    readRecsFrom L (count + 1) st' rest

/-- `readContigs` (AdjList.cpp:97-128) on one input file: the record
counter starts at 0, so the alphabet is (re)detected on the file's
first record. -/
def readContigs (L : Nat) (st : IngestState)
    (recs : List FastaRecord) : Except RunError IngestState :=
  readRecsFrom L 0 st recs

/-- The loop over input files in `main` (AdjList.cpp:173-177). -/
def readAll (L : Nat) (st : IngestState) :
    List (List FastaRecord) → Except RunError IngestState
  | [] => Except.ok st
  | f :: fs => do
    let st' ← readContigs L st f
    readAll L st' fs

/-! ### Overlap index construction (AdjList.cpp:183-193) -/

/-- One of the two hash tables, recorded as its sequence of
insertions; a key may occur many times and per-key insertion order is
the `vector::push_back` order. -/
abbrev EndMap : Type := List (Seq × ContigNode)

/-- All values stored under key `kmer`, in insertion order —
`ends[i][kmer]` of the hash-table-of-vectors. -/
def lookupAll (m : EndMap) (kmer : Seq) : List ContigNode :=
  (m.filter (fun p => p.1 = kmer)).map (fun p => p.2)

/-- The index-building loop (AdjList.cpp:186-193) from a given start
id: for each contig `u` (as-read, sense `false`) insert
`(u.r → u)` and `(reverseComplement u.l → ~u)` into index 0 and
`(u.l → u)` and `(reverseComplement u.r → ~u)` into index 1. -/
def buildEndsFrom (i : Nat) :
    List ContigEndSeq → EndMap × EndMap
  | [] => ([], [])
  | c :: rest =>
    let u : ContigNode := ⟨i, false⟩
    let e := buildEndsFrom (i + 1) rest
    ((c.r, u) :: (reverseComplement c.l, u.flip) :: e.1,
     (c.l, u) :: (reverseComplement c.r, u.flip) :: e.2)

/-- The two end-sequence indexes (`ends[0], ends[1]`) built from the
contig table. -/
def buildEnds (contigs : List ContigEndSeq) : EndMap × EndMap :=
  buildEndsFrom 0 contigs

/-! ### Edge construction (AdjList.cpp:196-206) -/

/-- The body of the edge loop for one oriented vertex `u`
(AdjList.cpp:198-205): probe `u.l` when `u` is reverse-sensed and
`u.r` otherwise, look the k-mer up in the opposite index
`ends[!u.sense()]`, and add one edge `u → v ^ u.sense()` per
candidate `v`. -/
def outEdges (contigs : List ContigEndSeq) (e0 e1 : EndMap)
    (u : ContigNode) : List ContigNode :=
  let contig := contigs.getD u.id ⟨[], []⟩
  let kmer := if u.sense then contig.l else contig.r
  let cands := lookupAll (if u.sense then e0 else e1) kmer
  cands.map (fun v => v.xorSense u.sense)

/-- The vertex set of the contig graph: every contig in both senses
(the `ContigGraph` vertex iterator enumerates oriented vertices). -/
def graphVertices (n : Nat) : List ContigNode :=
  (List.range n).flatMap (fun i => [⟨i, false⟩, ⟨i, true⟩])

/-- The full edge phase: the adjacency of every oriented vertex. -/
def buildGraph (contigs : List ContigEndSeq) :
    List (ContigNode × List ContigNode) :=
  let e := buildEnds contigs
  (graphVertices contigs.length).map
    (fun u => (u, outEdges contigs e.1 e.2 u))

/-- Edge test on the built graph: there is an edge `u → v` iff `v`
appears in the adjacency list of `u`. -/
def hasEdge (contigs : List ContigEndSeq) (u v : ContigNode) : Bool :=
  (buildGraph contigs).any (fun p => p.1 = u ∧ v ∈ p.2)

/-! ### `main` (AdjList.cpp:130-216) -/

/-- The outcome of a successful run: vertex properties, the contig
end table, and the adjacency lists. -/
structure RunResult : Type where
  props : List ContigProperties
  contigs : List ContigEndSeq
  graph : List (ContigNode × List ContigNode)
deriving DecidableEq, Repr

/-- `main` (AdjList.cpp:130-216): `opt::k` is 0 when `-k` is missing
(`none`); `if (opt::k <= 0)` rejects the run before any input is
read; otherwise every input file is ingested with L = k-1, the index
is built, and the edges are added. -/
def runMain (k : Option Nat) (files : List (List FastaRecord)) :
    Except RunError RunResult :=
  let kv := k.getD 0
  if kv = 0 then
    Except.error RunError.configError
  else do
    let st ← readAll (kv - 1) initState files
    Except.ok ⟨st.props, st.contigs, buildGraph st.contigs⟩

/-! ### Spec-side notions used to state the overlap property -/

/-- The contig-end table that ingestion computes for a list of
accepted sequences: `l` the first L symbols, `r` the last L
(AdjList.cpp:123-125). -/
def contigsOf (L : Nat) (seqs : List Seq) : List ContigEndSeq :=
  seqs.map (fun s => ⟨s.take L, s.drop (s.length - L)⟩)

/-- A sequence in a given orientation: as read, or
reverse-complemented. -/
def orient (s : Bool) (x : Seq) : Seq :=
  if s then reverseComplement x else x

/-- The L-length leading subsequence (spec: "the L-length prefix of B
in its given orientation"). -/
def prefixL (L : Nat) (x : Seq) : Seq := x.take L

/-- The L-length trailing subsequence (spec: "the L-length suffix of
A in its given orientation"). -/
def suffixL (L : Nat) (x : Seq) : Seq := x.drop (x.length - L)

/-- The distance returned by `get(edge_distance_t, ...)`
(AdjList.cpp:72-77): `-opt::k + 1`, ignoring the graph and the edge
descriptor (an edge is a pair of oriented vertices). -/
def edgeDistance (k : Nat) (_e : ContigNode × ContigNode) : Int :=
  -(k : Int) + 1

/-! ## Helper lemmas -/

theorem Sym.complement_complement (s : Sym) :
    s.complement.complement = s := by
  cases s <;> rfl

theorem Sym.complement_isDigitSym (s : Sym) :
    s.complement.isDigitSym = s.isDigitSym := by
  cases s <;> rfl

theorem Sym.complement_isAlphaSym (s : Sym) :
    s.complement.isAlphaSym = s.isAlphaSym := by
  cases s <;> rfl

theorem reverseComplement_involutive (x : Seq) :
    reverseComplement (reverseComplement x) = x := by
  simp [reverseComplement, List.map_reverse, List.map_map,
    Function.comp_def, Sym.complement_complement]

theorem reverseComplement_length (x : Seq) :
    (reverseComplement x).length = x.length := by
  simp [reverseComplement]

theorem reverseComplement_inj {x y : Seq}
    (h : reverseComplement x = reverseComplement y) : x = y := by
  have := congrArg reverseComplement h
  simpa [reverseComplement_involutive] using this

theorem prefixL_reverseComplement (L : Nat) (x : Seq) :
    prefixL L (reverseComplement x) =
      reverseComplement (suffixL L x) := by
  simp [prefixL, suffixL, reverseComplement, List.take_reverse,
    List.map_drop]

theorem suffixL_reverseComplement (L : Nat) (x : Seq)
    (h : L ≤ x.length) :
    suffixL L (reverseComplement x) =
      reverseComplement (prefixL L x) := by
  simp only [suffixL, prefixL, reverseComplement, List.length_reverse,
    List.length_map, List.drop_reverse, List.map_take]
  rw [Nat.sub_sub_self h]

theorem ContigNode.xorSense_xorSense (u : ContigNode) (s : Bool) :
    (u.xorSense s).xorSense s = u := by
  cases u with
  | mk i b => cases b <;> cases s <;> rfl

theorem mem_lookupAll {m : EndMap} {k : Seq} {v : ContigNode} :
    v ∈ lookupAll m k ↔ (k, v) ∈ m := by
  constructor
  · intro h
    rcases List.mem_map.mp h with ⟨p, hp, rfl⟩
    rcases List.mem_filter.mp hp with ⟨hm, he⟩
    have : p.1 = k := by simpa using he
    rcases p with ⟨a, b⟩
    cases this
    exact hm
  · intro h
    refine List.mem_map.mpr ⟨(k, v), List.mem_filter.mpr ⟨h, ?_⟩, rfl⟩
    simp

theorem buildEndsFrom_fst_eq (i : Nat) (cs : List ContigEndSeq) :
    (buildEndsFrom i cs).1 =
      (cs.enumFrom i).flatMap (fun pr =>
        [(pr.2.r, ⟨pr.1, false⟩),
         (reverseComplement pr.2.l, ⟨pr.1, true⟩)]) := by
  induction cs generalizing i with
  | nil => rfl
  | cons c rest ih =>
    simp [buildEndsFrom, List.enumFrom, ih (i + 1), ContigNode.flip]

theorem buildEndsFrom_snd_eq (i : Nat) (cs : List ContigEndSeq) :
    (buildEndsFrom i cs).2 =
      (cs.enumFrom i).flatMap (fun pr =>
        [(pr.2.l, ⟨pr.1, false⟩),
         (reverseComplement pr.2.r, ⟨pr.1, true⟩)]) := by
  induction cs generalizing i with
  | nil => rfl
  | cons c rest ih =>
    simp [buildEndsFrom, List.enumFrom, ih (i + 1), ContigNode.flip]

theorem mem_buildEnds_fst {cs : List ContigEndSeq}
    {p : Seq × ContigNode} :
    p ∈ (buildEnds cs).1 ↔
      ∃ j, ∃ h : j < cs.length,
        p = ((cs.get ⟨j, h⟩).r, ⟨j, false⟩) ∨
        p = (reverseComplement (cs.get ⟨j, h⟩).l, ⟨j, true⟩) := by
  rw [buildEnds, buildEndsFrom_fst_eq, List.mem_flatMap]
  rw [← List.enum_eq_enumFrom, List.exists_mem_enum]
  constructor
  · rintro ⟨j, hj, hp⟩
    refine ⟨j, hj, ?_⟩
    simpa [List.get_eq_getElem] using hp
  · rintro ⟨j, hj, hp⟩
    refine ⟨j, hj, ?_⟩
    simpa [List.get_eq_getElem] using hp

theorem mem_buildEnds_snd {cs : List ContigEndSeq}
    {p : Seq × ContigNode} :
    p ∈ (buildEnds cs).2 ↔
      ∃ j, ∃ h : j < cs.length,
        p = ((cs.get ⟨j, h⟩).l, ⟨j, false⟩) ∨
        p = (reverseComplement (cs.get ⟨j, h⟩).r, ⟨j, true⟩) := by
  rw [buildEnds, buildEndsFrom_snd_eq, List.mem_flatMap]
  rw [← List.enum_eq_enumFrom, List.exists_mem_enum]
  constructor
  · rintro ⟨j, hj, hp⟩
    refine ⟨j, hj, ?_⟩
    simpa [List.get_eq_getElem] using hp
  · rintro ⟨j, hj, hp⟩
    refine ⟨j, hj, ?_⟩
    simpa [List.get_eq_getElem] using hp

theorem mem_outEdges {contigs : List ContigEndSeq} {e0 e1 : EndMap}
    {u v : ContigNode} :
    v ∈ outEdges contigs e0 e1 u ↔
      v.xorSense u.sense ∈
        lookupAll (if u.sense then e0 else e1)
          (if u.sense then (contigs.getD u.id ⟨[], []⟩).l
           else (contigs.getD u.id ⟨[], []⟩).r) := by
  unfold outEdges
  rw [List.mem_map]
  constructor
  · rintro ⟨w, hw, rfl⟩
    rwa [ContigNode.xorSense_xorSense]
  · intro h
    exact ⟨v.xorSense u.sense, h, ContigNode.xorSense_xorSense v u.sense⟩

theorem mem_graphVertices {n : Nat} {u : ContigNode} :
    u ∈ graphVertices n ↔ u.id < n := by
  cases u with
  | mk i s =>
    simp only [graphVertices, List.mem_flatMap, List.mem_range,
      List.mem_cons, List.mem_singleton, List.not_mem_nil, or_false]
    constructor
    · rintro ⟨a, ha, h | h⟩ <;> (cases h; exact ha)
    · intro h
      cases s
      · exact ⟨i, h, Or.inl rfl⟩
      · exact ⟨i, h, Or.inr rfl⟩

theorem hasEdge_iff {contigs : List ContigEndSeq} {u v : ContigNode} :
    hasEdge contigs u v = true ↔
      u.id < contigs.length ∧
        v ∈ outEdges contigs (buildEnds contigs).1
              (buildEnds contigs).2 u := by
  unfold hasEdge buildGraph
  rw [List.any_eq_true]
  constructor
  · rintro ⟨p, hp, hcond⟩
    rcases List.mem_map.mp hp with ⟨w, hw, rfl⟩
    have hc := of_decide_eq_true hcond
    rcases hc with ⟨hw_eq, hv⟩
    cases hw_eq
    exact ⟨mem_graphVertices.mp hw, hv⟩
  · rintro ⟨hu, hv⟩
    refine ⟨(u, outEdges contigs (buildEnds contigs).1
        (buildEnds contigs).2 u),
      List.mem_map.mpr ⟨u, mem_graphVertices.mpr hu, rfl⟩, ?_⟩
    exact decide_eq_true ⟨rfl, hv⟩

theorem getD_eq_get {contigs : List ContigEndSeq} {i : Nat}
    (hi : i < contigs.length) :
    contigs.getD i ⟨[], []⟩ = contigs.get ⟨i, hi⟩ := by
  rw [List.getD_eq_getElem?_getD, List.getElem?_eq_getElem hi]
  rfl

theorem reverseComplement_eq_comm {x y : Seq} :
    reverseComplement x = y ↔ x = reverseComplement y := by
  constructor
  · rintro rfl
    rw [reverseComplement_involutive]
  · rintro rfl
    rw [reverseComplement_involutive]

theorem reverseComplement_inj_iff {x y : Seq} :
    reverseComplement x = reverseComplement y ↔ x = y := by
  rw [reverseComplement_eq_comm, reverseComplement_involutive]

theorem hasEdge_ff {contigs : List ContigEndSeq} {i j : Nat}
    (hi : i < contigs.length) (hj : j < contigs.length) :
    hasEdge contigs ⟨i, false⟩ ⟨j, false⟩ = true ↔
      (contigs.get ⟨i, hi⟩).r = (contigs.get ⟨j, hj⟩).l := by
  rw [hasEdge_iff, mem_outEdges]
  simp only [ContigNode.xorSense, getD_eq_get hi, Bool.xor_false,
    Bool.false_eq_true, if_false, mem_lookupAll, mem_buildEnds_snd,
    Prod.mk.injEq, ContigNode.mk.injEq, hi, true_and]
  constructor
  · rintro ⟨j', h', ⟨hk, rfl, -⟩ | ⟨-, -, hF⟩⟩
    · exact hk
    · simp at hF
  · intro hk
    exact ⟨j, hj, Or.inl ⟨hk, rfl, trivial⟩⟩

theorem hasEdge_ft {contigs : List ContigEndSeq} {i j : Nat}
    (hi : i < contigs.length) (hj : j < contigs.length) :
    hasEdge contigs ⟨i, false⟩ ⟨j, true⟩ = true ↔
      (contigs.get ⟨i, hi⟩).r =
        reverseComplement (contigs.get ⟨j, hj⟩).r := by
  rw [hasEdge_iff, mem_outEdges]
  simp only [ContigNode.xorSense, getD_eq_get hi, Bool.xor_false,
    Bool.false_eq_true, if_false, mem_lookupAll, mem_buildEnds_snd,
    Prod.mk.injEq, ContigNode.mk.injEq, hi, true_and]
  constructor
  · rintro ⟨j', h', ⟨-, -, hF⟩ | ⟨hk, rfl, -⟩⟩
    · simp at hF
    · exact hk
  · intro hk
    exact ⟨j, hj, Or.inr ⟨hk, rfl, trivial⟩⟩

theorem hasEdge_tf {contigs : List ContigEndSeq} {i j : Nat}
    (hi : i < contigs.length) (hj : j < contigs.length) :
    hasEdge contigs ⟨i, true⟩ ⟨j, false⟩ = true ↔
      (contigs.get ⟨i, hi⟩).l =
        reverseComplement (contigs.get ⟨j, hj⟩).l := by
  rw [hasEdge_iff, mem_outEdges]
  simp only [ContigNode.xorSense, getD_eq_get hi, Bool.xor_true,
    Bool.not_false, if_true, mem_lookupAll, mem_buildEnds_fst,
    Prod.mk.injEq, ContigNode.mk.injEq, hi, true_and]
  constructor
  · rintro ⟨j', h', ⟨-, -, hF⟩ | ⟨hk, rfl, -⟩⟩
    · simp at hF
    · exact hk
  · intro hk
    exact ⟨j, hj, Or.inr ⟨hk, rfl, trivial⟩⟩

theorem hasEdge_tt {contigs : List ContigEndSeq} {i j : Nat}
    (hi : i < contigs.length) (hj : j < contigs.length) :
    hasEdge contigs ⟨i, true⟩ ⟨j, true⟩ = true ↔
      (contigs.get ⟨i, hi⟩).l = (contigs.get ⟨j, hj⟩).r := by
  rw [hasEdge_iff, mem_outEdges]
  simp only [ContigNode.xorSense, getD_eq_get hi, Bool.xor_true,
    Bool.not_true, if_true, mem_lookupAll, mem_buildEnds_fst,
    Prod.mk.injEq, ContigNode.mk.injEq, hi, true_and]
  constructor
  · rintro ⟨j', h', ⟨hk, rfl, -⟩ | ⟨-, -, hF⟩⟩
    · exact hk
    · simp at hF
  · intro hk
    exact ⟨j, hj, Or.inl ⟨hk, rfl, trivial⟩⟩

theorem contigsOf_get (L : Nat) (seqs : List Seq) (i : Nat)
    (hi : i < seqs.length) (hi2 : i < (contigsOf L seqs).length) :
    (contigsOf L seqs).get ⟨i, hi2⟩ =
      ⟨prefixL L (seqs.get ⟨i, hi⟩),
       suffixL L (seqs.get ⟨i, hi⟩)⟩ := by
  simp [contigsOf, prefixL, suffixL, List.get_eq_getElem]

theorem except_bind_ok {α β : Type} (a : α)
    (f : α → Except RunError β) :
    (Except.ok a >>= f) = f a := rfl

theorem except_bind_err {α β : Type} (er : RunError)
    (f : α → Except RunError β) :
    ((Except.error er : Except RunError α) >>= f) =
      Except.error er := rfl

theorem stepRecord_short_err (L c : Nat) (st : IngestState)
    (rec : FastaRecord) (h : rec.seq.length ≤ L) :
    ∃ e, stepRecord L c st rec = Except.error e := by
  simp only [stepRecord]
  by_cases hc : c ≠ 0 ∧
      ((st.colourSpace = true ∧ ¬ firstIsDigit rec.seq = true) ∨
       (¬ st.colourSpace = true ∧ ¬ firstIsAlpha rec.seq = true))
  · rw [if_pos hc]
    exact ⟨_, rfl⟩
  · rw [if_neg hc, if_pos h]
    exact ⟨_, rfl⟩

theorem readRecsFrom_err (L c : Nat) (st : IngestState)
    (pre post : List FastaRecord) (rec : FastaRecord)
    (h : rec.seq.length ≤ L) :
    ∃ e, readRecsFrom L c st (pre ++ rec :: post) =
      Except.error e := by
  induction pre generalizing st c with
  | nil =>
    obtain ⟨e, he⟩ := stepRecord_short_err L c st rec h
    exact ⟨e, by simp [readRecsFrom, he, except_bind_err]⟩
  | cons p pre ih =>
    cases hp : stepRecord L c st p with
    | error e =>
      exact ⟨e, by simp [readRecsFrom, hp, except_bind_err]⟩
    | ok st1 =>
      obtain ⟨e, he⟩ := ih (c + 1) st1
      exact ⟨e, by
        simp [readRecsFrom, hp, he, except_bind_ok, except_bind_err]⟩

theorem stepRecord_long_ok (L c : Nat) (st : IngestState)
    (rec : FastaRecord) (hlen : L < rec.seq.length)
    (halpha : c = 0 ∨
      (if st.colourSpace then firstIsDigit rec.seq = true
       else firstIsAlpha rec.seq = true)) :
    stepRecord L c st rec = Except.ok
      ⟨if c = 0 then firstIsDigit rec.seq else st.colourSpace,
       st.props ++ [⟨rec.seq.length, getCoverage rec.comment⟩],
       st.contigs ++ [⟨rec.seq.take L,
         rec.seq.drop (rec.seq.length - L)⟩]⟩ := by
  simp only [stepRecord]
  rw [if_neg, if_neg (not_le.mpr hlen)]
  rintro ⟨hne, ⟨hcs, hnd⟩ | ⟨hncs, hna⟩⟩
  · rcases halpha with h0 | hmatch
    · exact hne h0
    · rw [if_pos hcs] at hmatch
      exact hnd hmatch
  · rcases halpha with h0 | hmatch
    · exact hne h0
    · rw [if_neg hncs] at hmatch
      exact hna hmatch

theorem stepRecord_colourSpace_zero (L : Nat) (st : IngestState)
    (rec : FastaRecord) (st2 : IngestState)
    (h : stepRecord L 0 st rec = Except.ok st2) :
    st2.colourSpace = firstIsDigit rec.seq := by
  simp only [stepRecord] at h
  rw [if_neg (by simp)] at h
  split at h
  · cases h
  · cases h
    rfl

theorem stepRecord_colourSpace_pos (L c : Nat) (st : IngestState)
    (rec : FastaRecord) (st2 : IngestState) (hc : c ≠ 0)
    (h : stepRecord L c st rec = Except.ok st2) :
    st2.colourSpace = st.colourSpace := by
  simp only [stepRecord] at h
  split at h
  · cases h
  · split at h
    · cases h
    · cases h
      simp [hc]

theorem stepRecord_mismatch_err (L c : Nat) (st : IngestState)
    (rec : FastaRecord) (hc : c ≠ 0)
    (hmis : (if st.colourSpace then firstIsDigit rec.seq
             else firstIsAlpha rec.seq) = false) :
    stepRecord L c st rec = Except.error RunError.alphabetError := by
  simp only [stepRecord]
  rw [if_pos]
  refine ⟨hc, ?_⟩
  cases hcs : st.colourSpace with
  | true =>
    rw [if_pos hcs] at hmis
    exact Or.inl ⟨rfl, by simp [hmis]⟩
  | false =>
    rw [if_neg (by simp [hcs])] at hmis
    exact Or.inr ⟨by simp, by simp [hmis]⟩

theorem readRecsFrom_mismatch_err (L : Nat) (cs : Bool)
    (rec : FastaRecord)
    (hmis : (if cs then firstIsDigit rec.seq
             else firstIsAlpha rec.seq) = false) :
    ∀ (pre post : List FastaRecord) (c : Nat) (st : IngestState),
      c ≠ 0 → st.colourSpace = cs →
      ∃ e, readRecsFrom L c st (pre ++ rec :: post) =
        Except.error e := by
  intro pre
  induction pre with
  | nil =>
    intro post c st hc hcs
    have hstep := stepRecord_mismatch_err L c st rec hc
      (by rw [hcs]; exact hmis)
    exact ⟨RunError.alphabetError,
      by simp [readRecsFrom, hstep, except_bind_err]⟩
  | cons p pre ih =>
    intro post c st hc hcs
    cases hp : stepRecord L c st p with
    | error e =>
      exact ⟨e, by simp [readRecsFrom, hp, except_bind_err]⟩
    | ok st1 =>
      have hcs1 : st1.colourSpace = cs := by
        rw [stepRecord_colourSpace_pos L c st p st1 hc hp]
        exact hcs
      obtain ⟨e, he⟩ := ih post (c + 1) st1 (Nat.succ_ne_zero c) hcs1
      exact ⟨e, by simp [readRecsFrom, hp, he, except_bind_ok]⟩

theorem readContigs_mixed_err (L : Nat) (st : IngestState)
    (r0 rec : FastaRecord) (pre post : List FastaRecord)
    (hmis : (if firstIsDigit r0.seq then firstIsDigit rec.seq
             else firstIsAlpha rec.seq) = false) :
    ∃ e, readContigs L st (r0 :: (pre ++ rec :: post)) =
      Except.error e := by
  unfold readContigs
  cases hs : stepRecord L 0 st r0 with
  | error e =>
    exact ⟨e, by simp [readRecsFrom, hs, except_bind_err]⟩
  | ok st1 =>
    have hcs := stepRecord_colourSpace_zero L st r0 st1 hs
    obtain ⟨e, he⟩ := readRecsFrom_mismatch_err L
      (firstIsDigit r0.seq) rec hmis pre post 1 st1
      (Nat.one_ne_zero) hcs
    exact ⟨e, by simp [readRecsFrom, hs, he, except_bind_ok]⟩

theorem readAll_file_err (L : Nat) (f : List FastaRecord)
    (hf : ∀ st, ∃ e, readContigs L st f = Except.error e) :
    ∀ (files1 files2 : List (List FastaRecord)) (st : IngestState),
      ∃ e, readAll L st (files1 ++ f :: files2) =
        Except.error e := by
  intro files1
  induction files1 with
  | nil =>
    intro files2 st
    obtain ⟨e, he⟩ := hf st
    exact ⟨e, by simp [readAll, he, except_bind_err]⟩
  | cons g gs ih =>
    intro files2 st
    cases hg : readContigs L st g with
    | error e =>
      exact ⟨e, by simp [readAll, hg, except_bind_err]⟩
    | ok st1 =>
      obtain ⟨e, he⟩ := ih files2 st1
      exact ⟨e, by simp [readAll, hg, he, except_bind_ok]⟩

theorem digit_not_ws {c : Char} (h : c.isDigit = true) :
    isSpaceChar c = false := by
  have hn : ¬(c = ' ' ∨ c = '\t' ∨ c = '\n' ∨ c = '\x0B' ∨
      c = '\x0C' ∨ c = '\r') := by
    rintro (rfl | rfl | rfl | rfl | rfl | rfl) <;>
      exact absurd h (by decide)
  push_neg at hn
  simp only [isSpaceChar]
  simp [hn.1, hn.2.1, hn.2.2.1, hn.2.2.2.1, hn.2.2.2.2.1,
    hn.2.2.2.2.2]

theorem digit_not_dash {c : Char} (h : c.isDigit = true) :
    ¬(c = '-') := by
  rintro rfl
  exact absurd h (by decide)

theorem digit_not_plus {c : Char} (h : c.isDigit = true) :
    ¬(c = '+') := by
  rintro rfl
  exact absurd h (by decide)

theorem splitSign_digit {d : Char} (u : List Char)
    (h : d.isDigit = true) :
    splitSign (d :: u) = (false, d :: u) := by
  simp only [splitSign]
  rw [if_neg (digit_not_dash h), if_neg (digit_not_plus h)]

theorem splitSign_dash (u : List Char) :
    splitSign ('-' :: u) = (true, u) := rfl

theorem takeWhile_append_all {p : Char → Bool} (l1 l2 : List Char)
    (h : ∀ c ∈ l1, p c = true) :
    (l1 ++ l2).takeWhile p = l1 ++ l2.takeWhile p := by
  induction l1 with
  | nil => simp
  | cons a l ih =>
    rw [List.cons_append, List.takeWhile_cons,
      if_pos (h a (List.mem_cons_self a l))]
    rw [ih (fun c hc => h c (List.mem_cons_of_mem a hc))]
    rfl

theorem dropWhile_append_all {p : Char → Bool} (l1 l2 : List Char)
    (h : ∀ c ∈ l1, p c = true) :
    (l1 ++ l2).dropWhile p = l2.dropWhile p := by
  induction l1 with
  | nil => rfl
  | cons a l ih =>
    rw [List.cons_append, List.dropWhile_cons,
      if_pos (h a (List.mem_cons_self a l))]
    exact ih (fun c hc => h c (List.mem_cons_of_mem a hc))

theorem takeWhile_eq_nil_dropWhile {p : Char → Bool} {l : List Char}
    (h : l.takeWhile p = []) : l.dropWhile p = l := by
  cases l with
  | nil => rfl
  | cons a l =>
    rw [List.takeWhile_cons] at h
    by_cases hpa : p a = true
    · rw [if_pos hpa] at h
      cases h
    · rw [List.dropWhile_cons, if_neg hpa]

theorem extract_digits (ds rest : List Char) (hne : ds ≠ [])
    (hds : ∀ c ∈ ds, c.isDigit = true)
    (hrest : rest.takeWhile Char.isDigit = []) :
    extractUInt (ds ++ rest) =
      if UINT_MAX < digitsVal ds then ⟨false, UINT_MAX, rest⟩
      else ⟨true, digitsVal ds, rest⟩ := by
  simp only [extractUInt]
  cases ds with
  | nil => exact absurd rfl hne
  | cons d ds2 =>
    have hd := hds d (List.mem_cons_self d ds2)
    have hns : ¬(isSpaceChar d = true) := by
      rw [digit_not_ws hd]
      simp
    rw [List.cons_append, List.dropWhile_cons, if_neg hns,
      splitSign_digit _ hd]
    simp only []
    rw [show d :: (ds2 ++ rest) = (d :: ds2) ++ rest from rfl]
    rw [takeWhile_append_all _ _ hds, hrest, List.append_nil]
    rw [dropWhile_append_all _ _ hds,
      takeWhile_eq_nil_dropWhile hrest]
    have hie : ¬((d :: ds2).isEmpty = true) := by simp
    have hf : ¬((false : Bool) = true) := by simp
    rw [if_neg hie, if_neg hf]

theorem extract_neg_digits (ds rest : List Char) (hne : ds ≠ [])
    (hds : ∀ c ∈ ds, c.isDigit = true)
    (hrest : rest.takeWhile Char.isDigit = []) :
    extractUInt ('-' :: (ds ++ rest)) =
      if UINT_MAX < digitsVal ds then ⟨false, UINT_MAX, rest⟩
      else ⟨true, (2 ^ 32 - digitsVal ds) % 2 ^ 32, rest⟩ := by
  simp only [extractUInt]
  have hnsd : ¬(isSpaceChar '-' = true) := by decide
  rw [List.dropWhile_cons, if_neg hnsd, splitSign_dash]
  simp only []
  cases ds with
  | nil => exact absurd rfl hne
  | cons d ds2 =>
    rw [takeWhile_append_all _ _ hds, hrest, List.append_nil]
    rw [dropWhile_append_all _ _ hds,
      takeWhile_eq_nil_dropWhile hrest]
    have hie : ¬((d :: ds2).isEmpty = true) := by simp
    rw [if_neg hie, if_true]

theorem extract_cons_space (X : List Char) :
    extractUInt (' ' :: X) = extractUInt X := by
  have h : (' ' :: X).dropWhile isSpaceChar =
      X.dropWhile isSpaceChar := by
    rw [List.dropWhile_cons, if_pos (by decide)]
  simp only [extractUInt, h]

theorem stepRecord_ok_state (L c : Nat) (st st2 : IngestState)
    (rec : FastaRecord) (h : stepRecord L c st rec = Except.ok st2) :
    st2.props = st.props ++
      [⟨rec.seq.length, getCoverage rec.comment⟩] ∧
    st2.contigs = st.contigs ++
      [⟨rec.seq.take L, rec.seq.drop (rec.seq.length - L)⟩] := by
  simp only [stepRecord] at h
  split at h
  · cases h
  · split at h
    · cases h
    · cases h
      exact ⟨rfl, rfl⟩

theorem readRecsFrom_ok_state (L : Nat) :
    ∀ (recs : List FastaRecord) (c : Nat) (st st2 : IngestState),
      readRecsFrom L c st recs = Except.ok st2 →
      st2.props = st.props ++ recs.map
        (fun r => ⟨r.seq.length, getCoverage r.comment⟩) ∧
      st2.contigs = st.contigs ++ recs.map
        (fun r => ⟨r.seq.take L, r.seq.drop (r.seq.length - L)⟩) := by
  intro recs
  induction recs with
  | nil =>
    intro c st st2 h
    cases h
    simp
  | cons rec rest ih =>
    intro c st st2 h
    rw [readRecsFrom] at h
    cases hs : stepRecord L c st rec with
    | error e =>
      rw [hs, except_bind_err] at h
      cases h
    | ok st1 =>
      rw [hs, except_bind_ok] at h
      obtain ⟨hp1, hc1⟩ := stepRecord_ok_state L c st st1 rec hs
      obtain ⟨hp2, hc2⟩ := ih (c + 1) st1 st2 h
      rw [hp2, hc2, hp1, hc1]
      simp

theorem readAll_ok_state (L : Nat) :
    ∀ (files : List (List FastaRecord)) (st st2 : IngestState),
      readAll L st files = Except.ok st2 →
      st2.props = st.props ++ files.flatten.map
        (fun r => ⟨r.seq.length, getCoverage r.comment⟩) ∧
      st2.contigs = st.contigs ++ files.flatten.map
        (fun r => ⟨r.seq.take L, r.seq.drop (r.seq.length - L)⟩) := by
  intro files
  induction files with
  | nil =>
    intro st st2 h
    cases h
    simp
  | cons f fs ih =>
    intro st st2 h
    rw [readAll] at h
    cases hf : readContigs L st f with
    | error e =>
      rw [hf, except_bind_err] at h
      cases h
    | ok st1 =>
      rw [hf, except_bind_ok] at h
      obtain ⟨hp1, hc1⟩ := readRecsFrom_ok_state L f 0 st st1 hf
      obtain ⟨hp2, hc2⟩ := ih st1 st2 h
      rw [hp2, hc2, hp1, hc1]
      simp

/-! ## Claims -/

/-- C1: For every pair of contigs A and B (including A = B) and every
choice of orientations for A and B, the output graph contains a
directed edge from A (in its orientation) to B (in its orientation)
iff the L-length suffix of A in its given orientation equals, as a
string over the active alphabet, the L-length prefix of B in its
given orientation (L = k-1). -/
theorem C1_edge_iff_overlap (L : Nat) (seqs : List Seq)
    (hlen : ∀ s ∈ seqs, L ≤ s.length)
    (i j : Nat) (si sj : Bool)
    (hi : i < seqs.length) (hj : j < seqs.length) :
    hasEdge (contigsOf L seqs) ⟨i, si⟩ ⟨j, sj⟩ = true ↔
      suffixL L (orient si (seqs.get ⟨i, hi⟩)) =
        prefixL L (orient sj (seqs.get ⟨j, hj⟩)) := by
  have hi2 : i < (contigsOf L seqs).length := by
    simpa [contigsOf] using hi
  have hj2 : j < (contigsOf L seqs).length := by
    simpa [contigsOf] using hj
  have hLi : L ≤ (seqs.get ⟨i, hi⟩).length :=
    hlen _ (List.get_mem seqs i hi)
  cases si
  · cases sj
    · rw [hasEdge_ff hi2 hj2, contigsOf_get L seqs i hi hi2,
        contigsOf_get L seqs j hj hj2]
      simp [orient]
    · rw [hasEdge_ft hi2 hj2, contigsOf_get L seqs i hi hi2,
        contigsOf_get L seqs j hj hj2]
      simp [orient, prefixL_reverseComplement]
  · cases sj
    · rw [hasEdge_tf hi2 hj2, contigsOf_get L seqs i hi hi2,
        contigsOf_get L seqs j hj hj2]
      simp only [orient, if_true, Bool.false_eq_true, if_false]
      rw [suffixL_reverseComplement _ _ hLi, reverseComplement_eq_comm]
    · rw [hasEdge_tt hi2 hj2, contigsOf_get L seqs i hi hi2,
        contigsOf_get L seqs j hj hj2]
      simp only [orient, if_true]
      rw [suffixL_reverseComplement _ _ hLi, prefixL_reverseComplement,
        reverseComplement_inj_iff]

/-- Witness for C1 at L = 1, contigs `AC` and `CG`, both as-read:
the suffix `C` of the first equals the prefix `C` of the second, and
the theorem instance confirms the edge test agrees. -/
theorem C1_edge_iff_overlap_witness :
    hasEdge (contigsOf 1 [[Sym.A, Sym.C], [Sym.C, Sym.G]])
        ⟨0, false⟩ ⟨1, false⟩ = true ↔
      suffixL 1 (orient false
          (([[Sym.A, Sym.C], [Sym.C, Sym.G]] : List Seq).get
            ⟨0, by decide⟩)) =
        prefixL 1 (orient false
          (([[Sym.A, Sym.C], [Sym.C, Sym.G]] : List Seq).get
            ⟨1, by decide⟩)) :=
  C1_edge_iff_overlap 1 [[Sym.A, Sym.C], [Sym.C, Sym.G]]
    (by decide) 0 1 false false (by decide) (by decide)

/-- C2: during edge building, for every vertex `u` the probed k-mer
is `u.l` when `u` is reverse-sensed and `u.r` otherwise; the lookup
is made in the opposite-sense index (index 1 when `u` is as-read,
index 0 when reverse-sensed); and every candidate `v` contributes
exactly one edge `u → v.xorSense u.sense`, with no deduplication (the
adjacency list is the candidate list mapped one-to-one). -/
theorem C2_outEdges_spec (contigs : List ContigEndSeq)
    (e0 e1 : EndMap) (u : ContigNode) (h : u.id < contigs.length) :
    outEdges contigs e0 e1 u =
      (lookupAll (if u.sense then e0 else e1)
          (if u.sense then (contigs.get ⟨u.id, h⟩).l
           else (contigs.get ⟨u.id, h⟩).r)).map
        (fun v => v.xorSense u.sense) ∧
    (outEdges contigs e0 e1 u).length =
      (lookupAll (if u.sense then e0 else e1)
          (if u.sense then (contigs.get ⟨u.id, h⟩).l
           else (contigs.get ⟨u.id, h⟩).r)).length := by
  unfold outEdges
  rw [getD_eq_get h]
  exact ⟨rfl, by rw [List.length_map]⟩

/-- Witness for C2: one contig, a duplicate candidate under the same
key in index 1; both duplicates yield edges. -/
theorem C2_outEdges_spec_witness :
    outEdges [⟨[Sym.A], [Sym.C]⟩] []
        [([Sym.C], ⟨0, false⟩), ([Sym.C], ⟨0, false⟩)] ⟨0, false⟩ =
      (lookupAll
          (if (false : Bool) then [] else
            [([Sym.C], ⟨0, false⟩), ([Sym.C], ⟨0, false⟩)])
          (if (false : Bool)
           then (([⟨[Sym.A], [Sym.C]⟩] :
              List ContigEndSeq).get ⟨0, by decide⟩).l
           else (([⟨[Sym.A], [Sym.C]⟩] :
              List ContigEndSeq).get ⟨0, by decide⟩).r)).map
        (fun v => v.xorSense false) ∧
    (outEdges [⟨[Sym.A], [Sym.C]⟩] []
        [([Sym.C], ⟨0, false⟩), ([Sym.C], ⟨0, false⟩)]
        ⟨0, false⟩).length =
      (lookupAll
          (if (false : Bool) then [] else
            [([Sym.C], ⟨0, false⟩), ([Sym.C], ⟨0, false⟩)])
          (if (false : Bool)
           then (([⟨[Sym.A], [Sym.C]⟩] :
              List ContigEndSeq).get ⟨0, by decide⟩).l
           else (([⟨[Sym.A], [Sym.C]⟩] :
              List ContigEndSeq).get ⟨0, by decide⟩).r)).length :=
  C2_outEdges_spec [⟨[Sym.A], [Sym.C]⟩] []
    [([Sym.C], ⟨0, false⟩), ([Sym.C], ⟨0, false⟩)] ⟨0, false⟩
    (by decide)

/-- C3: the overlap index is built by inserting, for every contig `u`
taken as-read (sense false), exactly four entries — `(u.r → u)` into
index 0, `(u.l → u)` into index 1, `(reverseComplement u.l → ~u)`
into index 0 and `(reverseComplement u.r → ~u)` into index 1 — and
nothing else: each index equals the concatenation of exactly these
per-contig insertions. -/
theorem C3_buildEnds_spec (cs : List ContigEndSeq) :
    (buildEnds cs).1 =
      cs.enum.flatMap (fun pr =>
        [(pr.2.r, ⟨pr.1, false⟩),
         (reverseComplement pr.2.l,
          ContigNode.flip ⟨pr.1, false⟩)]) ∧
    (buildEnds cs).2 =
      cs.enum.flatMap (fun pr =>
        [(pr.2.l, ⟨pr.1, false⟩),
         (reverseComplement pr.2.r,
          ContigNode.flip ⟨pr.1, false⟩)]) := by
  rw [List.enum_eq_enumFrom]
  constructor
  · rw [buildEnds, buildEndsFrom_fst_eq]
    simp [ContigNode.flip]
  · rw [buildEnds, buildEndsFrom_snd_eq]
    simp [ContigNode.flip]

/-- C4: the distance returned for every edge of the graph is the
constant `-(k-1)`; it does not depend on the edge queried, only on
the global k. -/
theorem C4_edge_distance_const (k : Nat)
    (e e2 : ContigNode × ContigNode) :
    edgeDistance k e = -((k : Int) - 1) ∧
      edgeDistance k e = edgeDistance k e2 := by
  unfold edgeDistance
  exact ⟨by ring, rfl⟩

/-- C5: a run whose k-mer size is missing (`none`, leaving `opt::k`
at 0) or non-positive (0, the only non-positive unsigned value) is a
fatal configuration error, reported identically for every input — no
input is read or processed. -/
theorem C5_missing_k_fatal (files : List (List FastaRecord)) :
    runMain none files = Except.error RunError.configError ∧
    runMain (some 0) files = Except.error RunError.configError ∧
    runMain none files = runMain none [] :=
  ⟨rfl, rfl, rfl⟩

/-- C6: a record whose sequence length is at most L = k-1 makes the
whole ingestion fail (wherever it sits in the stream, the run returns
an error, never a partial result), while a record whose sequence
length exceeds L — and which passes the alphabet check — is accepted,
extending the vertex properties and the terminal-k-mer table. -/
theorem C6_short_fatal_long_accepted (L c : Nat) (st : IngestState)
    (pre post : List FastaRecord) (rec recA : FastaRecord)
    (hshort : rec.seq.length ≤ L)
    (hlong : L < recA.seq.length)
    (halpha : c = 0 ∨
      (if st.colourSpace then firstIsDigit recA.seq = true
       else firstIsAlpha recA.seq = true)) :
    (∃ e, readRecsFrom L c st (pre ++ rec :: post) =
      Except.error e) ∧
    stepRecord L c st recA = Except.ok
      ⟨if c = 0 then firstIsDigit recA.seq else st.colourSpace,
       st.props ++ [⟨recA.seq.length, getCoverage recA.comment⟩],
       st.contigs ++ [⟨recA.seq.take L,
         recA.seq.drop (recA.seq.length - L)⟩]⟩ :=
  ⟨readRecsFrom_err L c st pre post rec hshort,
   stepRecord_long_ok L c st recA hlong halpha⟩

/-- Witness for C6 at L = 1: the record `A` (length 1) aborts the
run; the record `AC` (length 2) is accepted. -/
theorem C6_short_fatal_long_accepted_witness :
    ((∃ e, readRecsFrom 1 0 initState
        ([] ++ ⟨"x", [Sym.A], []⟩ :: []) = Except.error e) ∧
      stepRecord 1 0 initState ⟨"y", [Sym.A, Sym.C], []⟩ =
        Except.ok
          ⟨if 0 = 0 then firstIsDigit [Sym.A, Sym.C]
            else initState.colourSpace,
           initState.props ++
             [⟨([Sym.A, Sym.C] : Seq).length, getCoverage []⟩],
           initState.contigs ++
             [⟨([Sym.A, Sym.C] : Seq).take 1,
               ([Sym.A, Sym.C] : Seq).drop
                 (([Sym.A, Sym.C] : Seq).length - 1)⟩]⟩) :=
  C6_short_fatal_long_accepted 1 0 initState [] []
    ⟨"x", [Sym.A], []⟩ ⟨"y", [Sym.A, Sym.C], []⟩
    (by decide) (by decide) (Or.inl rfl)

/-- C7 counterexample: the first record of the run is numeric
(colour-space) and a later record is alphabetic, yet the run
succeeds — because `readContigs` resets its record counter per input
file and re-detects the alphabet on the first record of the second
file, the mixed-alphabet run is not rejected.  This refutes the claim
that the alphabet is determined solely from the first record of the
run and that every later record of the other class is fatal. -/
theorem C7_alphabet_counterexample :
    firstIsDigit [Sym.c0, Sym.c1] = true ∧
    firstIsDigit [Sym.A, Sym.C] = false ∧
    (runMain (some 2)
        [[⟨"d", [Sym.c0, Sym.c1], []⟩],
         [⟨"a", [Sym.A, Sym.C], []⟩]]).isOk = true :=
  ⟨rfl, rfl, rfl⟩

/-- C7 (amended): the active alphabet is re-determined from the first
record of each input file; within a single file, a later record whose
first symbol is not of the class detected from that file's first
record makes the whole run fail (so no graph, and in particular no
edge set, is ever produced). -/
theorem C7_per_file_alphabet (k : Option Nat)
    (files1 files2 : List (List FastaRecord))
    (r0 rec : FastaRecord) (pre post : List FastaRecord)
    (hmis : (if firstIsDigit r0.seq then firstIsDigit rec.seq
             else firstIsAlpha rec.seq) = false) :
    ∃ e, runMain k
        (files1 ++ (r0 :: (pre ++ rec :: post)) :: files2) =
      Except.error e := by
  unfold runMain
  by_cases hk : k.getD 0 = 0
  · rw [if_pos hk]
    exact ⟨_, rfl⟩
  · rw [if_neg hk]
    obtain ⟨e, he⟩ := readAll_file_err (k.getD 0 - 1) _
      (fun st => readContigs_mixed_err (k.getD 0 - 1) st r0 rec
        pre post hmis)
      files1 files2 initState
    exact ⟨e, by simp [he, except_bind_err]⟩

/-- Witness for C7 (amended): a digit record followed by an alpha
record in the same file aborts the run. -/
theorem C7_per_file_alphabet_witness :
    ∃ e, runMain (some 2)
        ([] ++ (⟨"d", [Sym.c0, Sym.c1], []⟩ ::
          ([] ++ ⟨"a", [Sym.A, Sym.C], []⟩ :: [])) :: []) =
      Except.error e :=
  C7_per_file_alphabet (some 2) [] []
    ⟨"d", [Sym.c0, Sym.c1], []⟩ ⟨"a", [Sym.A, Sym.C], []⟩ [] []
    (by decide)

/-- C8 counterexample: the comment `1 4294967296` has a second field
that `>> unsigned` cannot convert (it exceeds `UINT_MAX`, so the
extraction fails and the stream is left in a failed state), yet the
stored value — and hence the coverage — is `UINT_MAX = 4294967295`,
not 0 as the claim requires. -/
theorem C8_getCoverage_counterexample :
    (extractUInt ['1', ' ', '4', '2', '9', '4', '9', '6', '7', '2',
        '9', '6']).ok = true ∧
    (extractUInt (extractUInt ['1', ' ', '4', '2', '9', '4', '9',
        '6', '7', '2', '9', '6']).rest).ok = false ∧
    getCoverage ['1', ' ', '4', '2', '9', '4', '9', '6', '7', '2',
        '9', '6'] = 4294967295 ∧
    getCoverage ['1', ' ', '4', '2', '9', '4', '9', '6', '7', '2',
        '9', '6'] ≠ 0 :=
  ⟨rfl, rfl, rfl, by decide⟩

/-- C8 (amended): the coverage parse returns the value the second
extraction stores — the second of two whitespace-separated numbers
when it fits in 32-bit `unsigned` (a minus-signed in-range field is
converted modulo 2^32), but `UINT_MAX`, not 0, when the second field
is present and out of range; the result is 0 when the first number is
missing, malformed or out of range (the second extraction is then
never attempted) and when the second field stores 0 (missing or
malformed).  The result never depends on the first number's value,
and `getCoverage` is a total function into `Nat`, so the parse never
aborts ingestion. -/
theorem C8_getCoverage_spec (ds1 ds2 rest comment : List Char)
    (h1 : ds1 ≠ [] ∧ ∀ c ∈ ds1, c.isDigit = true)
    (hv1 : digitsVal ds1 ≤ UINT_MAX)
    (h2 : ds2 ≠ [] ∧ ∀ c ∈ ds2, c.isDigit = true)
    (hrest : rest.takeWhile Char.isDigit = []) :
    (digitsVal ds2 ≤ UINT_MAX →
      getCoverage (ds1 ++ ' ' :: (ds2 ++ rest)) = digitsVal ds2) ∧
    (UINT_MAX < digitsVal ds2 →
      getCoverage (ds1 ++ ' ' :: (ds2 ++ rest)) = UINT_MAX) ∧
    (digitsVal ds2 ≤ UINT_MAX →
      getCoverage (ds1 ++ ' ' :: ('-' :: (ds2 ++ rest))) =
        (2 ^ 32 - digitsVal ds2) % 2 ^ 32) ∧
    ((extractUInt comment).ok = false → getCoverage comment = 0) ∧
    ((extractUInt comment).ok = true →
      (extractUInt (extractUInt comment).rest).value = 0 →
      getCoverage comment = 0) := by
  have hsp : ∀ X : List Char,
      (' ' :: X).takeWhile Char.isDigit = [] := by
    intro X
    rw [List.takeWhile_cons, if_neg (by decide)]
  have hfirst : ∀ X : List Char,
      extractUInt (ds1 ++ ' ' :: X) =
        ⟨true, digitsVal ds1, ' ' :: X⟩ := by
    intro X
    rw [extract_digits ds1 (' ' :: X) h1.1 h1.2 (hsp X),
      if_neg (not_lt.mpr hv1)]
  refine ⟨?_, ?_, ?_, ?_, ?_⟩
  · intro hv2
    simp only [getCoverage, hfirst, extract_cons_space,
      extract_digits ds2 rest h2.1 h2.2 hrest,
      if_neg (not_lt.mpr hv2), if_true]
  · intro hv2
    simp only [getCoverage, hfirst, extract_cons_space,
      extract_digits ds2 rest h2.1 h2.2 hrest, if_pos hv2,
      if_true]
  · intro hv2
    simp only [getCoverage, hfirst, extract_cons_space,
      extract_neg_digits ds2 rest h2.1 h2.2 hrest,
      if_neg (not_lt.mpr hv2), if_true]
  · intro h
    simp [getCoverage, h]
  · intro h hv
    simp [getCoverage, h, hv]

/-- Witness for C8 (amended): comment `100 12` parses to coverage 12
(the leading `100` is ignored); the implications about out-of-range,
signed and failed fields are instantiated at the same tokens. -/
theorem C8_getCoverage_spec_witness :
    ((digitsVal ['1', '2'] ≤ UINT_MAX →
      getCoverage (['1', '0', '0'] ++ ' ' :: (['1', '2'] ++ [])) =
        digitsVal ['1', '2']) ∧
    (UINT_MAX < digitsVal ['1', '2'] →
      getCoverage (['1', '0', '0'] ++ ' ' :: (['1', '2'] ++ [])) =
        UINT_MAX) ∧
    (digitsVal ['1', '2'] ≤ UINT_MAX →
      getCoverage
          (['1', '0', '0'] ++ ' ' :: ('-' :: (['1', '2'] ++ []))) =
        (2 ^ 32 - digitsVal ['1', '2']) % 2 ^ 32) ∧
    ((extractUInt ['a', 'b', 'c']).ok = false →
      getCoverage ['a', 'b', 'c'] = 0) ∧
    ((extractUInt ['a', 'b', 'c']).ok = true →
      (extractUInt (extractUInt ['a', 'b', 'c']).rest).value = 0 →
      getCoverage ['a', 'b', 'c'] = 0)) :=
  C8_getCoverage_spec ['1', '0', '0'] ['1', '2'] [] ['a', 'b', 'c']
    (by decide) (by decide) (by decide) (by decide)

/-- C9: for every k-mer of the configured length L,
`reverseComplement` applied twice returns the original k-mer, and a
single application yields a k-mer of the same length L over the same
alphabet class (numeric symbols stay numeric, nucleotide letters stay
nucleotide). -/
theorem C9_reverseComplement_involution (L : Nat) (x : Seq)
    (hx : x.length = L) :
    reverseComplement (reverseComplement x) = x ∧
    (reverseComplement x).length = L ∧
    (reverseComplement x).all Sym.isDigitSym =
      x.all Sym.isDigitSym ∧
    (reverseComplement x).all Sym.isAlphaSym =
      x.all Sym.isAlphaSym := by
  refine ⟨reverseComplement_involutive x, ?_, ?_, ?_⟩
  · rw [reverseComplement_length, hx]
  · simp [reverseComplement, List.all_map, Function.comp_def,
      Sym.complement_isDigitSym]
  · simp [reverseComplement, List.all_map, Function.comp_def,
      Sym.complement_isAlphaSym]

/-- Witness for C9 at the k-mer `AC` with L = 2. -/
theorem C9_reverseComplement_involution_witness :
    reverseComplement (reverseComplement [Sym.A, Sym.C]) =
        [Sym.A, Sym.C] ∧
      (reverseComplement [Sym.A, Sym.C]).length = 2 ∧
      (reverseComplement [Sym.A, Sym.C]).all Sym.isDigitSym =
        ([Sym.A, Sym.C] : Seq).all Sym.isDigitSym ∧
      (reverseComplement [Sym.A, Sym.C]).all Sym.isAlphaSym =
        ([Sym.A, Sym.C] : Seq).all Sym.isAlphaSym :=
  C9_reverseComplement_involution 2 [Sym.A, Sym.C] (by decide)

/-- C10: after a successful run, vertex properties and the
terminal-k-mer table are in lockstep — they have the same length, and
for every position `i` both were produced from the i-th accepted
record (counting across all input sources in processing order): entry
`i` of the vertex properties records that record's length and
coverage, and entry `i` of the table records that record's first and
last L symbols, so the edge-building lookup `contigs[ContigID(u)]`
retrieves the terminal k-mers of vertex `u`'s own record. -/
theorem C10_vertex_table_lockstep (k : Nat)
    (files : List (List FastaRecord)) (res : RunResult) (i : Nat)
    (h : runMain (some (k + 1)) files = Except.ok res) :
    res.props.length = res.contigs.length ∧
    res.props[i]? = (files.flatten[i]?).map
      (fun r => ⟨r.seq.length, getCoverage r.comment⟩) ∧
    res.contigs[i]? = (files.flatten[i]?).map
      (fun r => ⟨r.seq.take k, r.seq.drop (r.seq.length - k)⟩) := by
  simp only [runMain, Option.getD, Nat.succ_ne_zero, if_false,
    Nat.add_sub_cancel] at h
  cases hr : readAll k initState files with
  | error e =>
    rw [hr, except_bind_err] at h
    cases h
  | ok st =>
    rw [hr, except_bind_ok] at h
    cases h
    obtain ⟨hp, hc⟩ := readAll_ok_state k files initState st hr
    simp only [initState, List.nil_append] at hp hc
    refine ⟨?_, ?_, ?_⟩
    · rw [hp, hc, List.length_map, List.length_map]
    · rw [hp, List.getElem?_map]
    · rw [hc, List.getElem?_map]

/-- Witness for C10: one input file with the single record `AC`
(k = 2, L = 1) produces exactly one vertex and one table entry, both
derived from that record. -/
theorem C10_vertex_table_lockstep_witness :
    (⟨[⟨2, 0⟩], [⟨[Sym.A], [Sym.C]⟩],
        [(⟨0, false⟩, []), (⟨0, true⟩, [])]⟩ :
          RunResult).props.length =
      (⟨[⟨2, 0⟩], [⟨[Sym.A], [Sym.C]⟩],
        [(⟨0, false⟩, []), (⟨0, true⟩, [])]⟩ :
          RunResult).contigs.length ∧
    (⟨[⟨2, 0⟩], [⟨[Sym.A], [Sym.C]⟩],
        [(⟨0, false⟩, []), (⟨0, true⟩, [])]⟩ :
          RunResult).props[0]? =
      (([[⟨"a", [Sym.A, Sym.C], []⟩]] :
          List (List FastaRecord)).flatten[0]?).map
        (fun r => ⟨r.seq.length, getCoverage r.comment⟩) ∧
    (⟨[⟨2, 0⟩], [⟨[Sym.A], [Sym.C]⟩],
        [(⟨0, false⟩, []), (⟨0, true⟩, [])]⟩ :
          RunResult).contigs[0]? =
      (([[⟨"a", [Sym.A, Sym.C], []⟩]] :
          List (List FastaRecord)).flatten[0]?).map
        (fun r => ⟨r.seq.take 1, r.seq.drop (r.seq.length - 1)⟩) :=
  C10_vertex_table_lockstep 1 [[⟨"a", [Sym.A, Sym.C], []⟩]]
    ⟨[⟨2, 0⟩], [⟨[Sym.A], [Sym.C]⟩],
      [(⟨0, false⟩, []), (⟨0, true⟩, [])]⟩ 0 rfl

end AdjList
